import Mathlib

/-!
Verification of the hypnogram library: a timeline of labeled time bouts
with query, filtering, consolidation and gap analysis operations.

Times, durations, fractions and tolerances are modelled as rationals.
A timeline is a list of bouts in row order; positional indices play the
role of the frame's integer index.  The sort used by gap filling leaves
its tie order unspecified in the source; the executable model realizes
it as one concrete sorted arrangement, and the gap-filling theorem is
proved for every start-time-sorted arrangement of the same rows, so no
tie-breaking order is assumed.
-/

/-- One scored interval: state label plus start/end/duration. -/
structure Bout where
  state : String
  start_time : ℚ
  end_time : ℚ
  duration : ℚ
deriving DecidableEq, Inhabited

/-- A reported hole between consecutive bouts. -/
structure Gap where
  start_time : ℚ
  end_time : ℚ
  duration : ℚ
deriving DecidableEq, Inhabited

/-- Error kinds surfaced by validated preconditions. -/
inductive HypnoError where
  | schemaError
  | orderingError
deriving DecidableEq

/-- The four fields a hypnogram frame must carry. -/
def requiredFields : List String := ["state", "start_time", "end_time", "duration"]

/-- `Hypnogram._validate`: fails unless every required field is present. -/
def validate (cols : List String) : Except HypnoError Unit :=
  if ∀ f ∈ requiredFields, f ∈ cols then Except.ok () else Except.error HypnoError.schemaError

/-- `Hypnogram.keep_states`: all bouts whose state is in the given set. -/
def keep_states (l : List Bout) (states : List String) : List Bout :=
  l.filter (fun b => states.contains b.state)

/-- Per-time step of `Hypnogram.get_states`: scan the bouts in order and let
each containing bout overwrite the label, starting from the empty label. -/
def labelAt (l : List Bout) (t : ℚ) : String :=
  l.foldl (fun acc b => if b.start_time ≤ t ∧ t ≤ b.end_time then b.state else acc) ""

/-- `Hypnogram.get_states`: label each query time with its state. -/
def get_states (l : List Bout) (times : List ℚ) : List String :=
  times.map (fun t => labelAt l t)

/-- Per-time step of `Hypnogram.covers_time`: scan the bouts in order,
setting the flag whenever a bout's closed interval contains the time. -/
def coveredAt (l : List Bout) (t : ℚ) : Bool :=
  l.foldl (fun acc b => if b.start_time ≤ t ∧ t ≤ b.end_time then true else acc) false

/-- `Hypnogram.covers_time`: whether each query time lies in some bout. -/
def covers_time (l : List Bout) (times : List ℚ) : List Bool :=
  times.map (fun t => coveredAt l t)

/-- Total duration of a list of bouts. -/
def sumDur (l : List Bout) : ℚ := (l.map Bout.duration).sum

/-- Loop of `DatetimeHypnogram.keep_first`: the mask `cumsum(duration) ≤ c`
with `acc` the running sum of all durations seen so far. -/
def keep_firstGo (c : ℚ) (acc : ℚ) : List Bout → List Bout
  | [] => []
  | b :: rest =>
    if acc + b.duration ≤ c then b :: keep_firstGo c (acc + b.duration) rest
    else keep_firstGo c (acc + b.duration) rest

/-- `DatetimeHypnogram.keep_first`: keep the bouts whose running cumulative
duration stays within the budget. -/
def keep_first (l : List Bout) (c : ℚ) : List Bout := keep_firstGo c 0 l

/-- Loop of `DatetimeHypnogram.keep_last`: the reversed-cumsum mask, i.e.
keep a bout iff the total duration from it to the end is within budget. -/
def keep_lastGo (c : ℚ) : List Bout → List Bout
  | [] => []
  | b :: rest =>
    if sumDur (b :: rest) ≤ c then b :: keep_lastGo c rest else keep_lastGo c rest

/-- `DatetimeHypnogram.keep_last`: keep only the trailing budget of time. -/
def keep_last (l : List Bout) (c : ℚ) : List Bout := keep_lastGo c l

/-- `DatetimeHypnogram.keep_longer`: bouts strictly longer than a duration. -/
def keep_longer (l : List Bout) (d : ℚ) : List Bout :=
  l.filter (fun b => decide (d < b.duration))

/-- Time-of-day of a wall-clock instant, in seconds since midnight. -/
def timeOfDay (t : ℚ) : ℚ := t - 86400 * (⌊t / 86400⌋ : ℚ)

/-- `indexer_between_time` window test, inclusive ends, wrapping past
midnight when the window's start is after its end. -/
def inWindow (s e tod : ℚ) : Bool :=
  if s ≤ e then decide (s ≤ tod ∧ tod ≤ e) else decide (s ≤ tod ∨ tod ≤ e)

/-- `DatetimeHypnogram.keep_between`: bouts whose start and end times of day
both fall in the window (intersection of the two index sets, in row order). -/
def keep_between (l : List Bout) (s e : ℚ) : List Bout :=
  l.filter (fun b => inWindow s e (timeOfDay b.start_time) && inWindow s e (timeOfDay b.end_time))

/-- `start_time.is_monotonic_increasing`: consecutive starts non-decreasing. -/
def startSorted : List Bout → Bool
  | [] => true
  | [_] => true
  | a :: b :: rest => decide (a.start_time ≤ b.start_time) && startSorted (b :: rest)

/-- `DatetimeHypnogram.get_gaps`: for each consecutive pair of bouts report
`next.start_time - current.end_time` when it strictly exceeds the tolerance. -/
def get_gaps (l : List Bout) (tol : ℚ) : List Gap :=
  match l with
  | [] => []
  | [_] => []
  | a :: b :: rest =>
    (if tol < b.start_time - a.end_time then
      [⟨a.end_time, b.start_time, b.start_time - a.end_time⟩]
    else []) ++ get_gaps (b :: rest) tol

/-- A synthesized bout filling one gap with the given state. -/
def gapBout (σ : String) (g : Gap) : Bout :=
  ⟨σ, g.start_time, g.end_time, g.duration⟩

/-- Pair every row with its position, the appended rows coming last. -/
def tag (l : List Bout) : List (Bout × Nat) :=
  (List.range l.length).map (fun i => (l.getD i default, i))

/-- Sort key on tagged rows: by start time, ties broken by original
position — one concrete realization of `sort_values("start_time")`,
whose tie order the source leaves unspecified. -/
def tagLe (x y : Bout × Nat) : Prop :=
  x.1.start_time < y.1.start_time ∨ (x.1.start_time = y.1.start_time ∧ x.2 ≤ y.2)

instance : DecidableRel tagLe := fun x y => by unfold tagLe; infer_instance

instance : IsTotal (Bout × Nat) tagLe :=
  ⟨fun x y => by
    unfold tagLe
    rcases lt_trichotomy x.1.start_time y.1.start_time with h | h | h
    · exact Or.inl (Or.inl h)
    · rcases Nat.le_total x.2 y.2 with h2 | h2
      · exact Or.inl (Or.inr ⟨h, h2⟩)
      · exact Or.inr (Or.inr ⟨h.symm, h2⟩)
    · exact Or.inr (Or.inl h)⟩

instance : IsTrans (Bout × Nat) tagLe :=
  ⟨fun x y z hxy hyz => by
    unfold tagLe at *
    rcases hxy with h1 | ⟨h1, h1i⟩ <;> rcases hyz with h2 | ⟨h2, h2i⟩
    · exact Or.inl (h1.trans h2)
    · exact Or.inl (h2 ▸ h1)
    · exact Or.inl (h1 ▸ h2)
    · exact Or.inr ⟨h1.trans h2, h1i.trans h2i⟩⟩

/-- `DatetimeHypnogram.fill_gaps`: synthesize a bout per detected gap,
append them, and re-sort by start time.  The source's sort does not
specify an order for tied start times; this executable model realizes one
concrete choice (sorting on the key (start_time, position)), and the
gap-filling theorem below quantifies over every start-time-sorted
arrangement of the same rows, so nothing proved depends on this choice. -/
def fill_gaps (l : List Bout) (tol : ℚ) (σ : String) : List Bout :=
  (List.insertionSort tagLe (tag (l ++ (get_gaps l tol).map (gapBout σ)))).map Prod.fst

/-- Positions of the bouts whose state is in the set (`bouts.index`). -/
def stateIdxs (l : List Bout) (states : List String) : List Nat :=
  (List.range l.length).filter (fun p => states.contains ((l.getD p default).state))

/-- `bouts.loc[i:j].duration.sum()` clamped at zero: total time spent in the
states of interest between positions `i` and `j`, inclusive. -/
def timeInStates (l : List Bout) (states : List String) (i j : Nat) : ℚ :=
  max ((((stateIdxs l states).filter (fun p => decide (i ≤ p ∧ p ≤ j))).map
    (fun p => (l.getD p default).duration)).sum) 0

/-- `self.loc[i:j]`: the full-timeline slice from position `i` to `j`. -/
def rangeSlice (l : List Bout) (i j : Nat) : List Bout :=
  (l.drop i).take (j + 1 - i)

/-- Maximum of a rational list (default for the vacuous empty case). -/
def qMaxD (xs : List ℚ) : ℚ := xs.foldl max (xs.headD 0)

/-- Minimum of a rational list (default for the vacuous empty case). -/
def qMinD (xs : List ℚ) : ℚ := xs.foldl min (xs.headD 0)

/-- `self.loc[i:j].end_time.max() - self.loc[i:j].start_time.min()`. -/
def totalTime (l : List Bout) (i j : Nat) : ℚ :=
  qMaxD ((rangeSlice l i j).map Bout.end_time) - qMinD ((rangeSlice l i j).map Bout.start_time)

/-- Inner loop of `get_consolidated`: scan candidate end indices `j` in
descending order; stop at subranges of accepted periods or when the
cumulative state time falls below the minimum; accept on the ratio test. -/
def innerScan (l : List Bout) (states : List String) (frac minTime : ℚ)
    (i : Nat) (k : Int) : List Nat → Option Nat
  | [] => none
  | j :: rest =>
    if (j : Int) < max (i : Int) k then none
    else if timeInStates l states i j < minTime then none
    else if frac ≤ timeInStates l states i j / totalTime l i j then some j
    else innerScan l states frac minTime i k rest

/-- Outer loop of `get_consolidated`: `k` is the end of the last accepted
period; starts inside it are skipped, accepted periods advance it. -/
def consolGo (l : List Bout) (states : List String) (frac minTime : ℚ)
    (rev : List Nat) : List Nat → Int → List (Nat × Nat)
  | [], _ => []
  | i :: rest, k =>
    if (i : Int) ≤ k then consolGo l states frac minTime rev rest k
    else
      match innerScan l states frac minTime i k rev with
      | some j => (i, j) :: consolGo l states frac minTime rev rest (j : Int)
      | none => consolGo l states frac minTime rev rest k

/-- `DatetimeHypnogram.get_consolidated`: maximal consolidated periods as
index ranges of the full timeline; requires the timeline to be sorted. -/
def get_consolidated (l : List Bout) (states : List String) (frac minTime : ℚ) :
    Except HypnoError (List (Nat × Nat)) :=
  if startSorted l then
    Except.ok (consolGo l states frac minTime (stateIdxs l states).reverse
      (stateIdxs l states) ((((stateIdxs l states).headD 0 : Nat) : Int) - 1))
  else Except.error HypnoError.orderingError

/-- Spec-side gap list: consecutive pairs, filtered on `gap > tolerance`. -/
def specGaps (l : List Bout) (tol : ℚ) : List Gap :=
  (l.zip l.tail).filterMap (fun p =>
    if tol < p.2.start_time - p.1.end_time then
      some ⟨p.1.end_time, p.2.start_time, p.2.start_time - p.1.end_time⟩
    else none)

/-- Spec-side label: the state of the last bout in sequence order whose
closed interval contains the time, or the empty label. -/
def lastContainingState (l : List Bout) (t : ℚ) : String :=
  (((l.filter (fun b => decide (b.start_time ≤ t ∧ t ≤ b.end_time))).getLast?).map
    Bout.state).getD ""

/-- Consolidation example timeline: A on [0,10], B on [10,10.5], A on [10.5,20]. -/
def exC1 : List Bout :=
  [⟨"A", 0, 10, 10⟩, ⟨"B", 10, 21/2, 1/2⟩, ⟨"A", 21/2, 20, 19/2⟩]

/-- Gap example timeline: A on [0,10], B on [15,20]. -/
def exGap : List Bout := [⟨"A", 0, 10, 10⟩, ⟨"B", 15, 20, 5⟩]

/-- An unsorted timeline: start times 5, 0. -/
def exUnsorted : List Bout := [⟨"A", 5, 6, 1⟩, ⟨"B", 0, 1, 1⟩]

/-- Timeline for the `keep_first` witness: durations 3, 2, 4. -/
def exKF : List Bout := [⟨"A", 0, 3, 3⟩, ⟨"B", 3, 5, 2⟩, ⟨"C", 5, 9, 4⟩]

/-- Timeline for the gap-filling counterexample: an overlap of half a second. -/
def exC9 : List Bout := [⟨"A", 0, 10, 10⟩, ⟨"B", 19/2, 12, 5/2⟩]

/-- Timeline with tied start times: A and B both start at 0. -/
def exC9b : List Bout := [⟨"A", 0, 1/2, 1/2⟩, ⟨"B", 0, 10, 10⟩, ⟨"C", 11, 12, 1⟩]

/-- A start-time-sorted arrangement of `exC9b` plus its tolerance-0 fill
bout, with the tie at start 0 broken the other way. -/
def exC9bM : List Bout :=
  [⟨"B", 0, 10, 10⟩, ⟨"A", 0, 1/2, 1/2⟩, ⟨"None", 10, 11, 1⟩, ⟨"C", 11, 12, 1⟩]

theorem sumDur_nil : sumDur [] = 0 := rfl

theorem sumDur_cons (b : Bout) (l : List Bout) : sumDur (b :: l) = b.duration + sumDur l := by
  simp [sumDur]

theorem foldl_or_eq (l : List Bout) (t : ℚ) (a : Bool) :
    l.foldl (fun acc b => if b.start_time ≤ t ∧ t ≤ b.end_time then true else acc) a =
      (a || l.any (fun b => decide (b.start_time ≤ t ∧ t ≤ b.end_time))) := by
  induction l generalizing a with
  | nil => simp
  | cons b rest ih =>
    simp only [List.foldl_cons, List.any_cons, ih]
    by_cases h : b.start_time ≤ t ∧ t ≤ b.end_time
    · simp [h]
    · simp [h]

theorem foldl_overwrite (l : List Bout) (t : ℚ) (a : String) :
    l.foldl (fun acc b => if b.start_time ≤ t ∧ t ≤ b.end_time then b.state else acc) a =
      (((l.filter (fun b => decide (b.start_time ≤ t ∧ t ≤ b.end_time))).getLast?.map
        Bout.state).getD a) := by
  induction l using List.reverseRecOn with
  | nil => simp
  | append_singleton xs b ih =>
    rw [List.foldl_append, List.filter_append]
    by_cases h : b.start_time ≤ t ∧ t ≤ b.end_time
    · simp [h, List.getLast?_concat]
    · simp [h, ih]

theorem labelAt_eq_last (l : List Bout) (t : ℚ) : labelAt l t = lastContainingState l t :=
  foldl_overwrite l t ""

/-- C5: `get_states` labels every query time with the state of the last bout
in sequence order whose closed interval contains it, and with the empty
label when no bout contains it; in particular a time strictly inside a
bout that is the only bout containing it gets that bout's state. -/
theorem get_states_last_wins :
    (∀ (l : List Bout) (times : List ℚ),
      get_states l times = times.map (fun t => lastContainingState l t)) ∧
    (∀ (l : List Bout) (b : Bout) (t : ℚ), b ∈ l → b.start_time < t → t < b.end_time →
      (∀ c ∈ l, c.start_time ≤ t → t ≤ c.end_time → c = b) →
      get_states l [t] = [b.state]) := by
  constructor
  · intro l times
    unfold get_states
    exact List.map_congr_left (fun t _ => labelAt_eq_last l t)
  · intro l b t hb h1 h2 huniq
    have hcond : (fun c : Bout => decide (c.start_time ≤ t ∧ t ≤ c.end_time)) b = true := by
      simp [le_of_lt h1, le_of_lt h2]
    have hmem : b ∈ l.filter (fun c => decide (c.start_time ≤ t ∧ t ≤ c.end_time)) :=
      List.mem_filter.mpr ⟨hb, hcond⟩
    have hne : l.filter (fun c => decide (c.start_time ≤ t ∧ t ≤ c.end_time)) ≠ [] :=
      List.ne_nil_of_mem hmem
    obtain ⟨x, hx⟩ := Option.isSome_iff_exists.mp (List.getLast?_isSome.mpr hne)
    have hxmem : x ∈ l.filter (fun c => decide (c.start_time ≤ t ∧ t ≤ c.end_time)) :=
      List.mem_of_mem_getLast? (by rw [hx]; exact Option.mem_def.mpr rfl)
    obtain ⟨hxl, hxc⟩ := List.mem_filter.mp hxmem
    have hxb : x = b := by
      have := of_decide_eq_true hxc
      exact huniq x hxl this.1 this.2
    show [labelAt l t] = [b.state]
    rw [labelAt_eq_last]
    unfold lastContainingState
    rw [hx, hxb]
    rfl

/-- Witness for C5 at a concrete timeline: the time 5 lies strictly inside
the only containing bout and receives its label. -/
theorem get_states_last_wins_witness :
    get_states [(⟨"REM", 0, 10, 10⟩ : Bout)] [(5 : ℚ)] = ["REM"] :=
  get_states_last_wins.2 [⟨"REM", 0, 10, 10⟩] ⟨"REM", 0, 10, 10⟩ 5
    (List.Mem.head _) (by with_unfolding_all decide) (by with_unfolding_all decide)
    (by with_unfolding_all decide)

/-- C6: coverage is closed on both ends: a query equal to a bout's start
time or end time is covered. -/
theorem covers_time_boundary (l : List Bout) (b : Bout) (hb : b ∈ l)
    (hwf : b.start_time ≤ b.end_time) :
    covers_time l [b.start_time] = [true] ∧ covers_time l [b.end_time] = [true] := by
  have key : ∀ t : ℚ, b.start_time ≤ t → t ≤ b.end_time → coveredAt l t = true := by
    intro t h1 h2
    unfold coveredAt
    rw [foldl_or_eq]
    simp only [Bool.false_or, List.any_eq_true]
    exact ⟨b, hb, by simp [h1, h2]⟩
  exact ⟨by simp [covers_time, key b.start_time le_rfl hwf],
    by simp [covers_time, key b.end_time hwf le_rfl]⟩

/-- Witness for C6 on a concrete one-bout timeline. -/
theorem covers_time_boundary_witness :
    covers_time [(⟨"W", 0, 1, 1⟩ : Bout)] [(0 : ℚ)] = [true] ∧
    covers_time [(⟨"W", 0, 1, 1⟩ : Bout)] [(1 : ℚ)] = [true] :=
  covers_time_boundary [⟨"W", 0, 1, 1⟩] ⟨"W", 0, 1, 1⟩ (List.Mem.head _)
    (by with_unfolding_all decide)

/-- C4: validation fails with the schema error exactly when one of the four
required fields is absent. -/
theorem validate_schema (cols : List String) :
    ((∃ f ∈ requiredFields, f ∉ cols) → validate cols = Except.error HypnoError.schemaError) ∧
    ((∀ f ∈ requiredFields, f ∈ cols) → validate cols = Except.ok ()) := by
  constructor
  · rintro ⟨f, hf, hnf⟩
    unfold validate
    rw [if_neg]
    intro h
    exact hnf (h f hf)
  · intro h
    unfold validate
    rw [if_pos h]

/-- Witness for C4: dropping `duration` fails, the full schema passes. -/
theorem validate_schema_witness :
    validate ["state", "start_time", "end_time"] = Except.error HypnoError.schemaError ∧
    validate ["state", "start_time", "end_time", "duration"] = Except.ok () :=
  ⟨(validate_schema _).1 (by decide), (validate_schema _).2 (by decide)⟩

theorem keep_firstGo_sublist (c : ℚ) (l : List Bout) :
    ∀ acc, (keep_firstGo c acc l).Sublist l := by
  induction l with
  | nil => intro acc; simp [keep_firstGo]
  | cons b rest ih =>
    intro acc
    unfold keep_firstGo
    by_cases h : acc + b.duration ≤ c
    · rw [if_pos h]; exact (ih _).cons₂ b
    · rw [if_neg h]; exact (ih _).cons b

theorem keep_lastGo_sublist (c : ℚ) (l : List Bout) : (keep_lastGo c l).Sublist l := by
  induction l with
  | nil => simp [keep_lastGo]
  | cons b rest ih =>
    unfold keep_lastGo
    by_cases h : sumDur (b :: rest) ≤ c
    · rw [if_pos h]; exact ih.cons₂ b
    · rw [if_neg h]; exact ih.cons b

/-- C10: every filtering operation returns a sub-sequence of the input
timeline: the kept bouts are bouts of the input, unchanged and in their
original relative order (the input itself is never mutated, all operations
being pure functions of it). -/
theorem filters_are_sublists (l : List Bout) (states : List String) (d c c' s e : ℚ) :
    (keep_states l states).Sublist l ∧ (keep_longer l d).Sublist l ∧
    (keep_first l c).Sublist l ∧ (keep_last l c').Sublist l ∧
    (keep_between l s e).Sublist l :=
  ⟨List.filter_sublist l, List.filter_sublist l, keep_firstGo_sublist c l 0,
    keep_lastGo_sublist c' l, List.filter_sublist l⟩

theorem startSorted_iff (l : List Bout) :
    startSorted l = true ↔ List.Chain' (fun a b => a.start_time ≤ b.start_time) l := by
  induction l with
  | nil => simp [startSorted]
  | cons a rest ih =>
    cases rest with
    | nil => simp [startSorted]
    | cons b r =>
      rw [List.chain'_cons, ← ih]
      simp [startSorted]

/-- C3: `get_consolidated` validates its sortedness precondition: on any
timeline whose start times are not non-decreasing it fails with the
ordering error instead of returning a result. -/
theorem get_consolidated_requires_sorted (l : List Bout) (states : List String)
    (frac minTime : ℚ)
    (h : ¬ List.Chain' (fun a b => a.start_time ≤ b.start_time) l) :
    get_consolidated l states frac minTime = Except.error HypnoError.orderingError := by
  unfold get_consolidated
  rw [if_neg]
  intro hs
  exact h ((startSorted_iff l).mp hs)

/-- Witness for C3 on a concrete unsorted timeline (starts 5 then 0). -/
theorem get_consolidated_requires_sorted_witness :
    get_consolidated exUnsorted ["A"] (4/5) 1 = Except.error HypnoError.orderingError :=
  get_consolidated_requires_sorted exUnsorted ["A"] (4/5) 1 (fun h => by
    have := (List.chain'_cons.mp h).1
    simp only [exUnsorted] at this
    norm_num at this)

theorem keep_firstGo_of_gt (c : ℚ) (l : List Bout) :
    ∀ acc, (∀ b ∈ l, 0 ≤ b.duration) → c < acc → keep_firstGo c acc l = [] := by
  induction l with
  | nil => intro acc _ _; rfl
  | cons b rest ih =>
    intro acc hd hc
    have hb : 0 ≤ b.duration := hd b (List.mem_cons_self b rest)
    have h1 : ¬ acc + b.duration ≤ c := by linarith
    unfold keep_firstGo
    rw [if_neg h1]
    exact ih _ (fun x hx => hd x (List.mem_cons_of_mem _ hx)) (by linarith)

theorem keep_firstGo_spec (c : ℚ) (l : List Bout) :
    ∀ acc, (∀ b ∈ l, 0 ≤ b.duration) → acc ≤ c →
      ∃ n, n ≤ l.length ∧ keep_firstGo c acc l = l.take n ∧
        acc + sumDur (l.take n) ≤ c ∧
        (n < l.length → c < acc + sumDur (l.take (n + 1))) := by
  induction l with
  | nil =>
    intro acc _ hc
    exact ⟨0, by simp, rfl, by simpa [sumDur] using hc, by simp⟩
  | cons b rest ih =>
    intro acc hd hc
    by_cases h : acc + b.duration ≤ c
    · obtain ⟨n, hn, he, hs, hb⟩ := ih (acc + b.duration)
        (fun x hx => hd x (List.mem_cons_of_mem _ hx)) h
      refine ⟨n + 1, by simpa using hn, ?_, ?_, ?_⟩
      · unfold keep_firstGo
        rw [if_pos h, he, List.take_succ_cons]
      · rw [List.take_succ_cons, sumDur_cons]
        linarith
      · intro hlt
        have := hb (by simpa using hlt)
        rw [List.take_succ_cons, sumDur_cons]
        linarith
    · have hb : 0 ≤ b.duration := hd b (List.mem_cons_self b rest)
      refine ⟨0, by simp, ?_, by simpa [sumDur] using hc, ?_⟩
      · unfold keep_firstGo
        rw [if_neg h]
        exact keep_firstGo_of_gt c rest _
          (fun x hx => hd x (List.mem_cons_of_mem _ hx)) (by linarith)
      · intro _
        rw [List.take_succ_cons, List.take_zero, sumDur_cons, sumDur_nil]
        linarith

/-- C7 (amended: non-negative budget): with non-negative durations and a
non-negative budget, `keep_first` keeps exactly the maximal prefix whose
cumulative duration stays within the budget; the kept durations sum to at
most the budget, and the first excluded bout (if any) would overflow it. -/
theorem keep_first_budget (l : List Bout) (c : ℚ)
    (hd : ∀ b ∈ l, 0 ≤ b.duration) (hc : 0 ≤ c) :
    ∃ n, n ≤ l.length ∧ keep_first l c = l.take n ∧
      sumDur (keep_first l c) ≤ c ∧
      (n < l.length → c < sumDur (l.take (n + 1))) := by
  obtain ⟨n, h1, h2, h3, h4⟩ := keep_firstGo_spec c l 0 hd hc
  have he : keep_first l c = l.take n := h2
  refine ⟨n, h1, he, ?_, fun h => by linarith [h4 h]⟩
  rw [he]
  linarith

/-- Counterexample for C7 as stated: with the (negative) budget `-1` and a
single bout of non-negative duration, nothing is kept, and the sum of kept
durations, `0`, is not `≤` the budget. -/
theorem keep_first_budget_cex :
    keep_first [(⟨"W", 0, 5, 5⟩ : Bout)] (-1) = [] ∧
    ¬ sumDur (keep_first [(⟨"W", 0, 5, 5⟩ : Bout)] (-1)) ≤ (-1 : ℚ) := by
  with_unfolding_all decide

/-- Witness for C7 at a concrete timeline with durations 3, 2, 4 and
budget 5: the kept prefix is the first two bouts. -/
theorem keep_first_budget_witness :
    (∀ b ∈ exKF, 0 ≤ b.duration) ∧ (0 : ℚ) ≤ 5 ∧
    (∃ n, n ≤ exKF.length ∧ keep_first exKF 5 = exKF.take n ∧
      sumDur (keep_first exKF 5) ≤ 5 ∧
      (n < exKF.length → 5 < sumDur (exKF.take (n + 1)))) :=
  ⟨by with_unfolding_all decide, by with_unfolding_all decide,
    keep_first_budget exKF 5 (by with_unfolding_all decide) (by with_unfolding_all decide)⟩

theorem get_gaps_duration_gt (l : List Bout) (tol : ℚ) :
    ∀ g ∈ get_gaps l tol, tol < g.duration := by
  induction l with
  | nil => intro g hg; simp [get_gaps] at hg
  | cons a rest ih =>
    cases rest with
    | nil => intro g hg; simp [get_gaps] at hg
    | cons b r =>
      intro g hg
      rw [get_gaps, List.mem_append] at hg
      rcases hg with h | h
      · by_cases hc : tol < b.start_time - a.end_time
        · rw [if_pos hc, List.mem_singleton] at h
          rw [h]
          exact hc
        · rw [if_neg hc] at h
          simp at h
      · exact ih g h

theorem get_gaps_eq_specGaps (l : List Bout) (tol : ℚ) : get_gaps l tol = specGaps l tol := by
  induction l with
  | nil => rfl
  | cons a rest ih =>
    cases rest with
    | nil => rfl
    | cons b r =>
      rw [get_gaps, specGaps, List.tail_cons, List.zip_cons_cons, List.filterMap_cons]
      by_cases hc : tol < b.start_time - a.end_time
      · rw [if_pos hc, if_pos hc, ih, specGaps, List.tail_cons]
        rfl
      · rw [if_neg hc, if_neg hc, ih, specGaps, List.tail_cons]
        rfl

/-- C8: with a non-negative tolerance, `get_gaps` returns exactly the
records of consecutive-pair gaps strictly exceeding the tolerance (so
negative gaps, i.e. overlaps, are never reported). -/
theorem get_gaps_consecutive (l : List Bout) (tol : ℚ) (h : 0 ≤ tol) :
    get_gaps l tol = specGaps l tol ∧ ∀ g ∈ get_gaps l tol, 0 < g.duration :=
  ⟨get_gaps_eq_specGaps l tol,
    fun g hg => lt_of_le_of_lt h (get_gaps_duration_gt l tol g hg)⟩

/-- Witness for C8 at the spec's example: bouts on [0,10] and [15,20] with
tolerance 0 give exactly the gap record (10, 15, 5). -/
theorem get_gaps_consecutive_witness :
    (0 : ℚ) ≤ 0 ∧
    (get_gaps exGap 0 = specGaps exGap 0 ∧ ∀ g ∈ get_gaps exGap 0, 0 < g.duration) ∧
    get_gaps exGap 0 = [⟨10, 15, 5⟩] :=
  ⟨le_refl 0, get_gaps_consecutive exGap 0 (le_refl 0), by with_unfolding_all decide⟩

/-- C1: on the timeline A:[0,10], B:[10,10.5], A:[10.5,20] with states {A},
frac 0.8 and minimum time 5, consolidation returns exactly one period: the
full-timeline slice over positions 0..2, spanning [0,20] with 19.5 of the
20 time units in state A; it does not return the two separate one-bout
ranges. -/
theorem get_consolidated_example :
    get_consolidated exC1 ["A"] (4/5) 5 = Except.ok [(0, 2)] ∧
    rangeSlice exC1 0 2 = exC1 ∧
    (exC1.getD 0 default).start_time = 0 ∧ (exC1.getD 2 default).end_time = 20 ∧
    timeInStates exC1 ["A"] 0 2 = 39/2 ∧ totalTime exC1 0 2 = 20 ∧
    get_consolidated exC1 ["A"] (4/5) 5 ≠ Except.ok [(0, 0), (2, 2)] := by
  refine ⟨by with_unfolding_all rfl, rfl, rfl, rfl, by with_unfolding_all decide,
    by with_unfolding_all decide, ?_⟩
  rw [show get_consolidated exC1 ["A"] (4/5) 5 = Except.ok [(0, 2)] from
    by with_unfolding_all rfl]
  intro hcontra
  exact absurd (Except.ok.inj hcontra) (by decide)

theorem innerScan_some (l : List Bout) (states : List String) (frac minTime : ℚ)
    (i : Nat) (k : Int) :
    ∀ js j, innerScan l states frac minTime i k js = some j → i ≤ j ∧ k ≤ (j : Int) := by
  intro js
  induction js with
  | nil => intro j h; simp [innerScan] at h
  | cons j0 rest ih =>
    intro j h
    rw [innerScan] at h
    by_cases h1 : (j0 : Int) < max (i : Int) k
    · rw [if_pos h1] at h
      exact absurd h (by simp)
    · rw [if_neg h1] at h
      by_cases h2 : timeInStates l states i j0 < minTime
      · rw [if_pos h2] at h
        exact absurd h (by simp)
      · rw [if_neg h2] at h
        by_cases h3 : frac ≤ timeInStates l states i j0 / totalTime l i j0
        · rw [if_pos h3, Option.some_inj] at h
          rw [← h]
          have hmax : max (i : Int) k ≤ (j0 : Int) := not_lt.mp h1
          obtain ⟨ha, hb⟩ := max_le_iff.mp hmax
          exact ⟨by exact_mod_cast ha, hb⟩
        · rw [if_neg h3] at h
          exact ih j h

theorem consolGo_mem (l : List Bout) (states : List String) (frac minTime : ℚ)
    (rev : List Nat) :
    ∀ is k (p : Nat × Nat), p ∈ consolGo l states frac minTime rev is k →
      k < (p.1 : Int) ∧ p.1 ≤ p.2 := by
  intro is
  induction is with
  | nil => intro k p h; simp [consolGo] at h
  | cons i rest ih =>
    intro k p h
    rw [consolGo] at h
    by_cases h1 : (i : Int) ≤ k
    · rw [if_pos h1] at h
      exact ih k p h
    · rw [if_neg h1] at h
      cases hscan : innerScan l states frac minTime i k rev with
      | some j =>
        rw [hscan] at h
        rcases List.mem_cons.mp h with rfl | hmem
        · exact ⟨not_le.mp h1, (innerScan_some l states frac minTime i k rev j hscan).1⟩
        · obtain ⟨h2, h3⟩ := ih (j : Int) p hmem
          refine ⟨?_, h3⟩
          have hij : i ≤ j := (innerScan_some l states frac minTime i k rev j hscan).1
          have hij2 : (i : Int) ≤ (j : Int) := by exact_mod_cast hij
          have hki : k < (i : Int) := not_le.mp h1
          linarith
      | none =>
        rw [hscan] at h
        exact ih k p h

theorem consolGo_pairwise (l : List Bout) (states : List String) (frac minTime : ℚ)
    (rev : List Nat) :
    ∀ is k, List.Pairwise (fun p q : Nat × Nat => p.2 < q.1)
      (consolGo l states frac minTime rev is k) := by
  intro is
  induction is with
  | nil => intro k; simp [consolGo]
  | cons i rest ih =>
    intro k
    rw [consolGo]
    by_cases h1 : (i : Int) ≤ k
    · rw [if_pos h1]
      exact ih k
    · rw [if_neg h1]
      cases hscan : innerScan l states frac minTime i k rev with
      | some j =>
        refine List.Pairwise.cons ?_ (ih (j : Int))
        intro q hq
        have h2 := (consolGo_mem l states frac minTime rev rest (j : Int) q hq).1
        exact_mod_cast h2
      | none =>
        exact ih k

/-- C2: the index ranges returned by `get_consolidated` are pairwise
non-nested: no accepted range is a proper sub-range of another. -/
theorem get_consolidated_maximality (l : List Bout) (states : List String)
    (frac minTime : ℚ) (ms : List (Nat × Nat))
    (hok : get_consolidated l states frac minTime = Except.ok ms) :
    ∀ p ∈ ms, ∀ q ∈ ms, p ≠ q → ¬ (p.1 ≤ q.1 ∧ q.2 ≤ p.2) := by
  intro p hp q hq hne hnest
  obtain ⟨h1, h2⟩ := hnest
  unfold get_consolidated at hok
  by_cases hs : startSorted l = true
  · rw [if_pos hs] at hok
    have hms := (Except.ok.inj hok).symm
    subst hms
    have hpair := consolGo_pairwise l states frac minTime (stateIdxs l states).reverse
      (stateIdxs l states) ((((stateIdxs l states).headD 0 : Nat) : Int) - 1)
    have hS : List.Pairwise (fun p q : Nat × Nat => p.2 < q.1 ∨ q.2 < p.1)
        (consolGo l states frac minTime (stateIdxs l states).reverse (stateIdxs l states)
          ((((stateIdxs l states).headD 0 : Nat) : Int) - 1)) :=
      hpair.imp (fun h => Or.inl h)
    have hsym : Symmetric (fun p q : Nat × Nat => p.2 < q.1 ∨ q.2 < p.1) := by
      intro p q h
      exact h.symm
    have hpq := List.Pairwise.forall hsym hS hp hq hne
    have hq12 := (consolGo_mem l states frac minTime (stateIdxs l states).reverse
      (stateIdxs l states) ((((stateIdxs l states).headD 0 : Nat) : Int) - 1) q hq).2
    rcases hpq with h | h
    · omega
    · omega
  · rw [if_neg hs] at hok
    exact absurd hok (by simp)

/-- Witness for C2: on the consolidation example the returned list is a
single range, trivially pairwise non-nested. -/
theorem get_consolidated_maximality_witness :
    get_consolidated exC1 ["A"] (4/5) 5 = Except.ok [(0, 2)] ∧
    ∀ p ∈ [((0 : Nat), (2 : Nat))], ∀ q ∈ [((0 : Nat), (2 : Nat))],
      p ≠ q → ¬ (p.1 ≤ q.1 ∧ q.2 ≤ p.2) :=
  ⟨by with_unfolding_all rfl,
    get_consolidated_maximality exC1 ["A"] (4/5) 5 [(0, 2)] (by with_unfolding_all rfl)⟩

theorem tagLe_cases {x y : Bout × Nat} (h : tagLe x y) :
    x.1.start_time < y.1.start_time ∨ (x.1.start_time = y.1.start_time ∧ x.2 ≤ y.2) := h

theorem tagLe_start_le {x y : Bout × Nat} (h : tagLe x y) :
    x.1.start_time ≤ y.1.start_time := by
  rcases tagLe_cases h with h | ⟨h, _⟩
  · exact le_of_lt h
  · exact le_of_eq h

theorem get_gaps_nil_of_chain (m : List Bout) (tol : ℚ)
    (h : List.Chain' (fun a b => b.start_time - a.end_time ≤ tol) m) :
    get_gaps m tol = [] := by
  induction m with
  | nil => rfl
  | cons a rest ih =>
    cases rest with
    | nil => rfl
    | cons b r =>
      obtain ⟨h1, h2⟩ := List.chain'_cons.mp h
      rw [get_gaps, if_neg (not_lt.mpr h1), List.nil_append]
      exact ih h2

theorem get_gaps_mem_iff (m : List Bout) (tol : ℚ) (g : Gap) :
    g ∈ get_gaps m tol ↔ ∃ p, p + 1 < m.length ∧
      tol < (m.getD (p + 1) default).start_time - (m.getD p default).end_time ∧
      g = ⟨(m.getD p default).end_time, (m.getD (p + 1) default).start_time,
        (m.getD (p + 1) default).start_time - (m.getD p default).end_time⟩ := by
  induction m with
  | nil => simp [get_gaps]
  | cons a rest ih =>
    cases rest with
    | nil => simp [get_gaps]
    | cons b r =>
      rw [get_gaps, List.mem_append]
      constructor
      · rintro (h | h)
        · by_cases hc : tol < b.start_time - a.end_time
          · rw [if_pos hc, List.mem_singleton] at h
            exact ⟨0, by simp, by simpa using hc, by simpa using h⟩
          · rw [if_neg hc] at h
            simp at h
        · obtain ⟨p, hp1, hp2, hp3⟩ := ih.mp h
          refine ⟨p + 1, ?_, by simpa using hp2, by simpa using hp3⟩
          simp only [List.length_cons] at hp1 ⊢
          omega
      · rintro ⟨p, hp1, hp2, hp3⟩
        cases p with
        | zero =>
          left
          rw [if_pos (by simpa using hp2), List.mem_singleton]
          simpa using hp3
        | succ p =>
          right
          refine ih.mpr ⟨p, ?_, by simpa using hp2, by simpa using hp3⟩
          simp only [List.length_cons] at hp1 ⊢
          omega

theorem sorted_start_le (l : List Bout)
    (hsort : List.Chain' (fun a b => a.start_time ≤ b.start_time) l)
    (p q : Nat) (hpq : p ≤ q) (hq : q < l.length) :
    (l.getD p default).start_time ≤ (l.getD q default).start_time := by
  haveI : IsTrans Bout (fun a b => a.start_time ≤ b.start_time) :=
    ⟨fun a b c h1 h2 => le_trans h1 h2⟩
  have hpw := List.chain'_iff_pairwise.mp hsort
  rcases Nat.eq_or_lt_of_le hpq with rfl | hlt
  · exact le_rfl
  · have hp : p < l.length := lt_trans hlt hq
    rw [List.getD_eq_get l default hp, List.getD_eq_get l default hq]
    exact List.pairwise_iff_get.mp hpw ⟨p, hp⟩ ⟨q, hq⟩ (Fin.mk_lt_mk.mpr hlt)

theorem fills_mem (l : List Bout) (tol : ℚ) (σ : String) (x : Bout)
    (hx : x ∈ (get_gaps l tol).map (gapBout σ)) :
    ∃ p, p + 1 < l.length ∧
      tol < (l.getD (p + 1) default).start_time - (l.getD p default).end_time ∧
      x.start_time = (l.getD p default).end_time ∧
      x.end_time = (l.getD (p + 1) default).start_time := by
  obtain ⟨g, hg, rfl⟩ := List.mem_map.mp hx
  obtain ⟨p, h1, h2, rfl⟩ := (get_gaps_mem_iff l tol g).mp hg
  exact ⟨p, h1, h2, rfl, rfl⟩

theorem sorted_window_mem (M : List Bout)
    (hM : List.Pairwise (fun a b => a.start_time ≤ b.start_time) M)
    (m : Nat) (hm1 : m < M.length) (hm2 : m + 1 < M.length)
    (x : Bout) (hx : x ∈ M) :
    x.start_time ≤ (M.get ⟨m, hm1⟩).start_time ∨ x = M.get ⟨m, hm1⟩ ∨
      x = M.get ⟨m + 1, hm2⟩ ∨ (M.get ⟨m + 1, hm2⟩).start_time ≤ x.start_time := by
  obtain ⟨t, ht⟩ := List.mem_iff_get.mp hx
  rcases Nat.lt_trichotomy t.1 m with h | h | h
  · left
    rw [← ht]
    exact List.pairwise_iff_get.mp hM t ⟨m, hm1⟩ (by simpa [Fin.lt_def] using h)
  · right; left
    rw [← ht]
    have : t = ⟨m, hm1⟩ := Fin.ext h
    rw [this]
  · by_cases h2 : t.1 = m + 1
    · right; right; left
      rw [← ht]
      have : t = ⟨m + 1, hm2⟩ := Fin.ext h2
      rw [this]
    · right; right; right
      rw [← ht]
      refine List.pairwise_iff_get.mp hM ⟨m + 1, hm2⟩ t ?_
      simp only [Fin.lt_def]
      omega

theorem tag_fst (m : List Bout) : (tag m).map Prod.fst = m := by
  unfold tag
  rw [List.map_map]
  refine List.ext_get (by simp) ?_
  intro n h1 h2
  simp only [List.get_map, List.get_range, Function.comp]
  exact List.getD_eq_get m default h2

theorem fill_gaps_perm (l : List Bout) (tol : ℚ) (σ : String) :
    (fill_gaps l tol σ).Perm (l ++ (get_gaps l tol).map (gapBout σ)) := by
  unfold fill_gaps
  have h := (List.perm_insertionSort tagLe
    (tag (l ++ (get_gaps l tol).map (gapBout σ)))).map Prod.fst
  rwa [tag_fst] at h

theorem fill_gaps_sorted (l : List Bout) (tol : ℚ) (σ : String) :
    List.Chain' (fun a b => a.start_time ≤ b.start_time) (fill_gaps l tol σ) := by
  unfold fill_gaps
  rw [List.chain'_map]
  exact List.Pairwise.chain'
    ((List.sorted_insertionSort tagLe _).imp (fun h => tagLe_start_le h))

theorem sorted_perm_gap_free (l : List Bout) (tol : ℚ) (σ : String) (M : List Bout)
    (hsort : List.Chain' (fun a b => a.start_time < b.start_time) l)
    (hwf : ∀ b ∈ l, b.start_time < b.end_time)
    (htol : 0 ≤ tol)
    (hperm : M.Perm (l ++ (get_gaps l tol).map (gapBout σ)))
    (hM : List.Chain' (fun a b => a.start_time ≤ b.start_time) M) :
    List.Chain' (fun a b => b.start_time - a.end_time ≤ tol) M := by
  have hsort_le : List.Chain' (fun a b => a.start_time ≤ b.start_time) l :=
    hsort.imp (fun {a b} h => le_of_lt h)
  haveI : IsTrans Bout (fun a b : Bout => a.start_time ≤ b.start_time) :=
    ⟨fun a b c h1 h2 => le_trans h1 h2⟩
  have hMp : List.Pairwise (fun a b => a.start_time ≤ b.start_time) M :=
    List.chain'_iff_pairwise.mp hM
  rw [List.chain'_iff_get]
  intro m hm
  by_contra hbad
  push_neg at hbad
  have hm1 : m < M.length := by omega
  have hm2 : m + 1 < M.length := by omega
  have hbad2 : tol < (M.get ⟨m + 1, hm2⟩).start_time - (M.get ⟨m, hm1⟩).end_time := hbad
  have win : ∀ x ∈ M,
      x.start_time ≤ (M.get ⟨m, hm1⟩).start_time ∨ x = M.get ⟨m, hm1⟩ ∨
        x = M.get ⟨m + 1, hm2⟩ ∨ (M.get ⟨m + 1, hm2⟩).start_time ≤ x.start_time :=
    fun x hx => sorted_window_mem M hMp m hm1 hm2 x hx
  obtain ⟨a, hadef⟩ : ∃ a, M.get ⟨m, hm1⟩ = a := ⟨_, rfl⟩
  obtain ⟨b, hbdef⟩ : ∃ b, M.get ⟨m + 1, hm2⟩ = b := ⟨_, rfl⟩
  rw [hadef, hbdef] at hbad2 win
  have haM : a ∈ M := by rw [← hadef]; exact List.get_mem M m hm1
  have hbM : b ∈ M := by rw [← hbdef]; exact List.get_mem M (m + 1) hm2
  have hmemM : ∀ x, x ∈ l ++ (get_gaps l tol).map (gapBout σ) → x ∈ M :=
    fun x hx => hperm.mem_iff.mpr hx
  rcases List.mem_append.mp (hperm.mem_iff.mp haM) with hal | haf
  · -- the left element of the offending pair is an original bout
    have hwfa : a.start_time < a.end_time := hwf a hal
    obtain ⟨⟨p, hp⟩, hpa⟩ := List.mem_iff_get.mp hal
    have hpaD : l.getD p default = a := by
      rw [List.getD_eq_get l default hp]
      exact hpa
    by_cases hp1 : p + 1 < l.length
    · -- it has an original successor
      have hconsec : a.start_time < (l.getD (p + 1) default).start_time := by
        rw [List.getD_eq_get l default hp1, ← hpa]
        exact List.chain'_iff_get.mp hsort p (by omega)
      by_cases hg : tol < (l.getD (p + 1) default).start_time - a.end_time
      · -- the fill bout for this pair exists, and can stand nowhere
        have hgmem : (⟨a.end_time, (l.getD (p + 1) default).start_time,
            (l.getD (p + 1) default).start_time - a.end_time⟩ : Gap) ∈ get_gaps l tol := by
          refine (get_gaps_mem_iff l tol _).mpr ⟨p, hp1, ?_, ?_⟩
          · rw [hpaD]
            exact hg
          · rw [hpaD]
        have hfM : gapBout σ ⟨a.end_time, (l.getD (p + 1) default).start_time,
            (l.getD (p + 1) default).start_time - a.end_time⟩ ∈ M :=
          hmemM _ (List.mem_append.mpr (Or.inr (List.mem_map_of_mem _ hgmem)))
        rcases win _ hfM with hc | hc | hc | hc
        · simp only [gapBout] at hc
          linarith
        · have hc1 := congrArg Bout.start_time hc
          simp only [gapBout] at hc1
          linarith
        · have hc1 := congrArg Bout.start_time hc
          simp only [gapBout] at hc1
          linarith
        · simp only [gapBout] at hc
          linarith
      · -- no fill here: the successor itself can stand nowhere
        push_neg at hg
        have hoM : l.getD (p + 1) default ∈ M := by
          refine hmemM _ (List.mem_append.mpr (Or.inl ?_))
          rw [List.getD_eq_get l default hp1]
          exact List.get_mem l (p + 1) hp1
        rcases win _ hoM with hc | hc | hc | hc
        · linarith
        · have hc1 := congrArg Bout.start_time hc
          linarith
        · have hc1 := congrArg Bout.start_time hc
          linarith
        · linarith
    · -- the originals end at this bout: the right element can stand nowhere
      push_neg at hp1
      rcases List.mem_append.mp (hperm.mem_iff.mp hbM) with hbl | hbf
      · obtain ⟨⟨q, hq⟩, hqb⟩ := List.mem_iff_get.mp hbl
        have hqbD : l.getD q default = b := by
          rw [List.getD_eq_get l default hq]
          exact hqb
        have hble := sorted_start_le l hsort_le q p (by omega) hp
        rw [hqbD, hpaD] at hble
        linarith
      · obtain ⟨r, hr1, hr2, hr3, hr4⟩ := fills_mem l tol σ b hbf
        have hps := sorted_start_le l hsort_le (r + 1) p (by omega) hp
        rw [hpaD] at hps
        linarith
  · -- the left element is a fill bout: its gap's right endpoint bout can
    -- stand nowhere
    obtain ⟨p, hp1, hp2, hp3, hp4⟩ := fills_mem l tol σ a haf
    have hoM : l.getD (p + 1) default ∈ M := by
      refine hmemM _ (List.mem_append.mpr (Or.inl ?_))
      rw [List.getD_eq_get l default hp1]
      exact List.get_mem l (p + 1) hp1
    rcases win _ hoM with hc | hc | hc | hc
    · linarith
    · have hc1 := congrArg Bout.start_time hc
      linarith
    · have hc1 := congrArg Bout.start_time hc
      linarith
    · linarith

/-- C9 (amended: strictly increasing start times, positive-length bouts,
non-negative tolerance): gap filling is idempotent for gap detection —
`get_gaps` at the same tolerance reports nothing on any start-time-sorted
arrangement of the rows `fill_gaps` produces, in particular on its own
output, so no tie-breaking order of the re-sort is assumed — and
`fill_gaps` returns a new timeline made of exactly the original bouts
plus one bout per reported gap, sorted by start time (both operations
are pure, so the input is never mutated). -/
theorem fill_gaps_idempotent (l : List Bout) (tol : ℚ) (σ : String) (M : List Bout)
    (hsort : List.Chain' (fun a b => a.start_time < b.start_time) l)
    (hwf : ∀ b ∈ l, b.start_time < b.end_time)
    (htol : 0 ≤ tol)
    (hperm : M.Perm (l ++ (get_gaps l tol).map (gapBout σ)))
    (hM : List.Chain' (fun a b => a.start_time ≤ b.start_time) M) :
    get_gaps M tol = [] ∧
    get_gaps (fill_gaps l tol σ) tol = [] ∧
    List.Chain' (fun a b => a.start_time ≤ b.start_time) (fill_gaps l tol σ) ∧
    (fill_gaps l tol σ).Perm (l ++ (get_gaps l tol).map (gapBout σ)) := by
  refine ⟨?_, ?_, fill_gaps_sorted l tol σ, fill_gaps_perm l tol σ⟩
  · exact get_gaps_nil_of_chain M tol
      (sorted_perm_gap_free l tol σ M hsort hwf htol hperm hM)
  · exact get_gaps_nil_of_chain _ tol
      (sorted_perm_gap_free l tol σ _ hsort hwf htol
        (fill_gaps_perm l tol σ) (fill_gaps_sorted l tol σ))

/-- Counterexample for C9 as stated, in both of its failure modes. With
tolerance `-1` on a sorted well-formed timeline with a half-second
overlap, a degenerate fill bout is synthesized and `get_gaps` on the
filled result still reports a gap. And with tied start times at
tolerance `0`, the tie order of the re-sort decides the outcome: some
start-time-sorted arrangement of the rows produced for `exC9b` (whose
bout B precedes the tied, shorter bout A) still shows a gap, so no
tolerance-only amendment can hold over every sorted tie order. -/
theorem fill_gaps_idempotent_cex :
    (List.Chain' (fun a b => a.start_time ≤ b.start_time) exC9 ∧
      (∀ b ∈ exC9, b.start_time ≤ b.end_time) ∧
      get_gaps (fill_gaps exC9 (-1) "None") (-1) ≠ []) ∧
    (List.Chain' (fun a b => a.start_time ≤ b.start_time) exC9b ∧
      (∀ b ∈ exC9b, b.start_time ≤ b.end_time) ∧
      exC9bM.Perm (exC9b ++ (get_gaps exC9b 0).map (gapBout "None")) ∧
      List.Chain' (fun a b => a.start_time ≤ b.start_time) exC9bM ∧
      get_gaps exC9bM 0 ≠ []) := by
  refine ⟨⟨?_, by with_unfolding_all decide, ?_⟩,
    ?_, by with_unfolding_all decide, by with_unfolding_all decide, ?_, ?_⟩
  · simp only [exC9, List.chain'_cons, List.chain'_singleton, and_true]
    norm_num
  · rw [show get_gaps (fill_gaps exC9 (-1) "None") (-1) = [⟨10, 19/2, -1/2⟩] from
      by with_unfolding_all decide]
    simp
  · simp only [exC9b, List.chain'_cons, List.chain'_singleton, and_true]
    norm_num
  · simp only [exC9bM, List.chain'_cons, List.chain'_singleton, and_true]
    norm_num
  · rw [show get_gaps exC9bM 0 = [⟨1/2, 10, 19/2⟩] from by with_unfolding_all decide]
    simp

/-- Witness for the amended C9 at the gap example with tolerance 0, with
the sorted arrangement taken to be the explicit filled list. -/
theorem fill_gaps_idempotent_witness :
    get_gaps [(⟨"A", 0, 10, 10⟩ : Bout), ⟨"None", 10, 15, 5⟩, ⟨"B", 15, 20, 5⟩] 0 = [] ∧
    get_gaps (fill_gaps exGap 0 "None") 0 = [] ∧
    List.Chain' (fun a b => a.start_time ≤ b.start_time) (fill_gaps exGap 0 "None") ∧
    (fill_gaps exGap 0 "None").Perm (exGap ++ (get_gaps exGap 0).map (gapBout "None")) :=
  fill_gaps_idempotent exGap 0 "None"
    [⟨"A", 0, 10, 10⟩, ⟨"None", 10, 15, 5⟩, ⟨"B", 15, 20, 5⟩]
    (by simp only [exGap, List.chain'_cons, List.chain'_singleton, and_true]; norm_num)
    (by with_unfolding_all decide) le_rfl (by with_unfolding_all decide)
    (by simp only [List.chain'_cons, List.chain'_singleton, and_true]; norm_num)
